import Mathlib

/-!
Verification development for the header `virus_genealogy.h`, a DAG store
(class `VirusGenealogy<Virus>`) with a fixed stem node, multi-parent
creation, edge connection with rollback, and cascading removal.

Modelling choices (shallow embedding):

* Virus identifiers are natural numbers.  A `Virus` payload is constructed
  from its identifier and `get_id` returns it, so a payload is modelled by
  the identifier itself.
* A `Node` owns two `std::set<std::shared_ptr<Node>>` members (parents and
  children).  Inside one store, live nodes are in bijection with their
  identifiers, so both sets are modelled as `Finset Nat`.  The C++ sets are
  ordered by the raw pointer value stored in the `shared_ptr`; pointer order
  is modelled by a per-node allocation stamp (`alloc`), strictly increasing
  over node creations (ties broken by identifier), so iteration over a set
  of nodes follows allocation order.
* The map `viruses` is modelled by the finset `ids` of present identifiers
  together with the two adjacency functions.  Values of the adjacency
  functions outside `ids` are stale memory of destroyed nodes and are never
  consulted by the operations.
* A C++ exception propagating out of an operation is modelled by the
  operation returning `some e` next to the store it leaves behind.
-/

/-- The three exception classes of the header: `VirusNotFound`,
`VirusAlreadyCreated`, `TriedToRemoveStemVirus`. -/
inductive Err : Type
  | notFound : Err
  | alreadyCreated : Err
  | triedToRemoveStem : Err
deriving DecidableEq

/-- State of one `VirusGenealogy` object: the identifier map, both adjacency
sets of every node, the stem identifier, and the allocation stamps modelling
pointer order of `std::set<smart_ptr>`. -/
structure Store : Type where
  ids : Finset Nat
  parentsOf : Nat → Finset Nat
  childrenOf : Nat → Finset Nat
  stem : Nat
  alloc : Nat → Nat
  nextAlloc : Nat

/-- The constructor `VirusGenealogy(stem_id)`: one node, no edges. -/
def VirusGenealogy (stem_id : Nat) : Store :=
  ⟨{stem_id}, fun _ => ∅, fun _ => ∅, stem_id, fun _ => 0, 1⟩

/-- Member function `get_stem_id`. -/
def get_stem_id (s : Store) : Nat := s.stem

/-- Member function `exists` (a Lean keyword, hence the longer name). -/
def existsVirus (s : Store) (i : Nat) : Bool := i ∈ s.ids

/-- Member function `get_parents`: identifiers of the parents of `i`, or
`VirusNotFound`.  The C++ vector enumerates a `std::set`, so its content is
exactly the parent set; it is modelled as that finset. -/
def get_parents (s : Store) (i : Nat) : Except Err (Finset Nat) :=
  if i ∈ s.ids then .ok (s.parentsOf i) else .error .notFound

/-- Insertion of one node id into a list that is already ordered by
allocation stamp (ties broken by identifier). -/
def insAlloc (s : Store) (a : Nat) : List Nat → List Nat
  | [] => [a]
  | b :: l =>
    if s.alloc a < s.alloc b ∨ (s.alloc a = s.alloc b ∧ a ≤ b) then a :: b :: l
    else b :: insAlloc s a l

/-- Sorting a list of node ids by allocation stamp: the model of the
iteration order of a `std::set<smart_ptr>` (ordered by pointer value). -/
def sortAlloc (s : Store) : List Nat → List Nat
  | [] => []
  | a :: l => insAlloc s a (sortAlloc s l)

/-- Ascending enumeration of a finite set of naturals, used to turn the
finset model of a `std::set` back into a concrete list of elements. -/
def ascList (F : Finset Nat) : List Nat :=
  (List.range (F.sup id + 1)).filter (fun x => x ∈ F)

/-- The sequence of child ids met when iterating a node member `children`
from `begin()` to `end()`, in the order of the underlying
`std::set<smart_ptr>`, i.e. pointer (allocation) order. -/
def childList (s : Store) (p : Nat) : List Nat :=
  sortAlloc s (ascList (s.childrenOf p))

/-- Members `get_children_begin` and `get_children_end` expose the children
of node `i` as an iterator range; the observable content of that range is
the list of child payloads (= ids) in set order, or `VirusNotFound`. -/
def get_children (s : Store) (i : Nat) : Except Err (List Nat) :=
  if i ∈ s.ids then .ok (childList s i) else .error .notFound

/-- The rollback loop of the catch branches of `connect`: erase every
recorded iterator, i.e. erase `child` from the `children` set of every
parent in `in_process`.  Note that it erases only the recorded
`children`-set insertions; the `parents`-set insertions are not recorded. -/
def rollback (child : Nat) (u : Store) (acc : List Nat) : Store :=
  acc.foldl
    (fun v p =>
      ⟨v.ids, v.parentsOf,
        Function.update v.childrenOf p ((v.childrenOf p).erase child),
        v.stem, v.alloc, v.nextAlloc⟩)
    u

/-- One step of the loop body of `connect(child_id, parent_ids)`: if the
parent id is absent, `viruses.at` raises and the catch branch erases the
recorded insertions; otherwise, when the edge is not present yet, it is
inserted into the parent `children` set (and recorded in `in_process`) and
into the child `parents` set. -/
def connectLoop (child : Nat) : Store → List Nat → List Nat → Store × Option Err
  | u, [], _ => (u, none)
  | u, p :: rest, acc =>
    if p ∈ u.ids then
      if child ∈ u.childrenOf p then connectLoop child u rest acc
      else
        connectLoop child
          ⟨u.ids,
            Function.update u.parentsOf child (insert p (u.parentsOf child)),
            Function.update u.childrenOf p (insert child (u.childrenOf p)),
            u.stem, u.alloc, u.nextAlloc⟩
          rest (p :: acc)
    else (rollback child u acc, some .notFound)

/-- Member function `connect(child_id, parent_ids)` (the private vector
overload; the public two-id overload passes a one-element vector). -/
def connect (s : Store) (child_id : Nat) (parent_ids : List Nat) :
    Store × Option Err :=
  if child_id ∈ s.ids then connectLoop child_id s parent_ids []
  else (s, some .notFound)

/-- Member function `create(id, parent_ids)`: empty parent list is a silent
no-op; a present id raises `VirusAlreadyCreated`; otherwise a fresh node is
inserted into the map and `connect` is called, any exception erasing the
fresh node again (its adjacency memory becomes stale). -/
def create (s : Store) (i : Nat) (parent_ids : List Nat) : Store × Option Err :=
  if parent_ids = [] then (s, none)
  else if i ∈ s.ids then (s, some .alreadyCreated)
  else
    let s1 : Store :=
      ⟨insert i s.ids,
        Function.update s.parentsOf i ∅,
        Function.update s.childrenOf i ∅,
        s.stem,
        Function.update s.alloc i s.nextAlloc,
        s.nextAlloc + 1⟩
    match connect s1 i parent_ids with
    | (t, none) => (t, none)
    | (t, some e) =>
      (⟨t.ids.erase i, t.parentsOf, t.childrenOf, t.stem, t.alloc, t.nextAlloc⟩,
        some e)

/-- State of the bfs-like traversal of `remove`: the queue `to_process`, the
set `fully_remove` of popped nodes, and the counters `removed_parents`. -/
structure BfsSt : Type where
  queue : List Nat
  visited : Finset Nat
  cnt : Nat → Nat

/-- Processing of one child inside the traversal loop of `remove`:
increment the counter of the child and, exactly when it reaches the size of
the child parent set, push the child. -/
def touchChild (s : Store) (st : BfsSt) (c : Nat) : BfsSt :=
  ⟨if st.cnt c + 1 = (s.parentsOf c).card then st.queue ++ [c] else st.queue,
    st.visited,
    Function.update st.cnt c (st.cnt c + 1)⟩

/-- One iteration of the while loop of `remove`: insert the popped node into
`fully_remove`, then walk its children in set order. -/
def popNode (s : Store) (cur : Nat) (st : BfsSt) : BfsSt :=
  (childList s cur).foldl (touchChild s) ⟨st.queue, insert cur st.visited, st.cnt⟩

/-- The while loop of `remove`, with explicit fuel (the C++ loop runs until
the queue is empty; the fuel chosen in `removalSet` is shown sufficient for
well-formed stores). -/
def bfsRun (s : Store) : Nat → BfsSt → BfsSt
  | 0, st => st
  | n + 1, st =>
    match st.queue with
    | [] => st
    | c :: q => bfsRun s n (popNode s c ⟨q, st.visited, st.cnt⟩)

/-- The set `fully_remove` computed by the traversal of `remove(i)`. -/
def removalSet (s : Store) (i : Nat) : Finset Nat :=
  (bfsRun s (s.ids.card + 1) ⟨[i], ∅, fun _ => 0⟩).visited

/-- Member function `remove(id)`.  The guard/commit phase is rendered by its
net effect on each node: every node of `fully_remove` has both sets cleared
and leaves the map; a surviving node loses the removed members of its
parent set (the `RemoveGuard`s staged per removed node over its surviving
children), and a parent of `id` loses `id` from its child set. -/
def remove (s : Store) (i : Nat) : Store × Option Err :=
  if i = s.stem then (s, some .triedToRemoveStem)
  else if i ∈ s.ids then
    let R := removalSet s i
    (⟨s.ids \ R,
      fun x =>
        if x ∈ R then ∅
        else (s.parentsOf x).filter (fun c => ¬(c ∈ R ∧ x ∈ s.childrenOf c)),
      fun x =>
        if x ∈ R then ∅
        else if x ∈ s.parentsOf i then (s.childrenOf x).erase i
        else s.childrenOf x,
      s.stem, s.alloc, s.nextAlloc⟩, none)
  else (s, some .notFound)

/-- Two stores are observationally equal: same stem, same identifiers, and
identical adjacency on every present identifier (stale memory of destroyed
nodes is not observable). -/
def StoreEquiv (s t : Store) : Prop :=
  s.stem = t.stem ∧ s.ids = t.ids ∧
    ∀ x ∈ s.ids, s.parentsOf x = t.parentsOf x ∧ s.childrenOf x = t.childrenOf x

/-- The store of the C1 failing input: stem 0, then create(1,[0]) and
create(2,[0]). -/
def rollbackStore : Store :=
  (create ((create (VirusGenealogy 0) 1 [0]).1) 2 [0]).1

/-- The failing call of the C1 input: connect(2, [1, 99]), where 99 is
absent. -/
def rollbackCall : Store × Option Err := connect rollbackStore 2 [1, 99]

/-- C1: the claim states that a failing multi-parent `connect` rolls back
every edge added during the call, in both directions, before the error is
surfaced.  The code comment above `connect` promises the same ("it restores
them to the beginning state"), but the rollback only erases the recorded
`children`-set insertions; the `child->parents.insert(parent)` insertions
are never recorded nor rolled back.  This theorem evaluates the model at the
failing input: stem 0, create(1,[0]), create(2,[0]), then connect(2,[1,99]).
The call raises `VirusNotFound` and erases 2 from the child set of 1, but
node 2 keeps 1 in its parent set, so the store is not restored. -/
theorem c1_connect_rollback_bug :
    rollbackStore.parentsOf 2 = {0} ∧
    rollbackCall.2 = some .notFound ∧
    rollbackCall.1.parentsOf 2 = {1, 0} ∧
    rollbackCall.1.childrenOf 1 = ∅ ∧
    rollbackCall.1.ids = rollbackStore.ids := by
  decide

/-- C2 counterexample: with stem 5, create(3,[5]) then create(1,[5])
allocates node 3 before node 1, so the child set of the stem iterates as
[3, 1] (pointer order), which is not ascending order of identifiers.  The
claim, as stated, is false at this store. -/
theorem c2_cex_children_not_id_ordered :
    let u2 := (create ((create (VirusGenealogy 5) 3 [5]).1) 1 [5]).1
    5 ∈ u2.ids ∧ childList u2 5 = [3, 1] ∧
    ¬ List.Sorted (· < ·) (childList u2 5) := by
  decide

/-- C3 counterexample: `connect` never checks whether its child argument is
the stem, so after construct(0), create(1,[0]), the call connect(0,[1])
succeeds and gives the stem a parent; afterwards no entity at all has an
empty parent set, refuting the claim for this sequence of successful
operations. -/
theorem c3_cex_connect_gives_stem_parent :
    let v1 := (create (VirusGenealogy 0) 1 [0]).1
    let v2 := connect v1 0 [1]
    v2.2 = none ∧ v2.1.parentsOf 0 = {1} ∧
    v2.1.ids.filter (fun x => v2.1.parentsOf x = ∅) = ∅ := by
  decide

/-- C4 counterexample: after construct(0), create(1,[0]), create(2,[0]),
create(3,[2]), connect(2,[3]), connect(1,[2]), connect(0,[1]) — all
successful — the call remove(1) succeeds and cascade-removes the stem
itself (the stem has parent set {1}, which lands entirely in the removal
set), so afterwards `exists(get_stem_id())` is false, refuting the claim
for this reachable store. -/
theorem c4_cex_stem_removed_by_cascade :
    let w1 := (create (VirusGenealogy 0) 1 [0]).1
    let w2 := (create w1 2 [0]).1
    let w3 := (create w2 3 [2]).1
    let w4 := connect w3 2 [3]
    let w5 := connect w4.1 1 [2]
    let w6 := connect w5.1 0 [1]
    let w7 := remove w6.1 1
    w4.2 = none ∧ w5.2 = none ∧ w6.2 = none ∧ w7.2 = none ∧
    w7.1.ids = {3, 2} ∧
    existsVirus w7.1 (get_stem_id w7.1) = false := by
  decide

/-- The call create(3, [1, 2]) of the C6 scenario, on the store built by
construct(0), create(1,[0]), create(2,[0]) (S=0, A=1, B=2, C=3). -/
def cascadeCreate : Store × Option Err :=
  create ((create ((create (VirusGenealogy 0) 1 [0]).1) 2 [0]).1) 3 [1, 2]

/-- The call remove(1) of the C6 scenario. -/
def cascadeRemoveA : Store × Option Err := remove cascadeCreate.1 1

/-- The subsequent call remove(2) of the C6 scenario. -/
def cascadeRemoveB : Store × Option Err := remove cascadeRemoveA.1 2

/-- C6: in the store built by construct(0), create(1,[0]), create(2,[0]),
create(3,[1,2]) (S=0, A=1, B=2, C=3), remove(1) removes node 1 and the edge
0→1 but keeps node 3, whose parent set becomes {2}; the subsequent
remove(2) then cascade-removes node 3, because its last parent is gone. -/
theorem c6_cascade_scenario :
    cascadeCreate.2 = none ∧
    cascadeRemoveA.2 = none ∧
    existsVirus cascadeRemoveA.1 1 = false ∧
    existsVirus cascadeRemoveA.1 3 = true ∧
    1 ∉ cascadeRemoveA.1.childrenOf 0 ∧
    cascadeRemoveA.1.parentsOf 3 = {2} ∧
    cascadeRemoveB.2 = none ∧
    existsVirus cascadeRemoveB.1 3 = false ∧
    cascadeRemoveB.1.ids = {0} := by
  decide

/-- C8: `create(id, parent_ids)` with a non-empty parent list and an id that
is already present raises `VirusAlreadyCreated`; the presence check happens
before any mutation, so the returned store is the argument store itself
(same entities, same edges). -/
theorem c8_duplicate_create_rejected (s : Store) (i : Nat) (ps : List Nat)
    (hps : ps ≠ []) (hi : i ∈ s.ids) :
    create s i ps = (s, some .alreadyCreated) := by
  simp [create, hps, hi]

/-- Witness for C8 at a concrete input. -/
theorem c8_witness :
    ([0] ≠ ([] : List Nat)) ∧ 0 ∈ (VirusGenealogy 0).ids ∧
      create (VirusGenealogy 0) 0 [0] = (VirusGenealogy 0, some .alreadyCreated) :=
  ⟨by decide, by decide,
    c8_duplicate_create_rejected (VirusGenealogy 0) 0 [0] (by decide) (by decide)⟩

/-- C9: `create(id, [])` with an empty parent list and a fresh id is a
silent no-op: the empty-list check returns before anything else happens, so
the store is returned unchanged with no error. -/
theorem c9_create_empty_noop_fresh (s : Store) (i : Nat) (_hi : i ∉ s.ids) :
    create s i [] = (s, none) := by
  simp [create]

/-- Witness for C9 at a concrete input. -/
theorem c9_witness :
    (7 ∉ (VirusGenealogy 0).ids) ∧ create (VirusGenealogy 0) 7 [] = (VirusGenealogy 0, none) :=
  ⟨by decide, c9_create_empty_noop_fresh (VirusGenealogy 0) 7 (by decide)⟩

/-- C10: `create(id, [])` with an id that is already present is also a
silent no-op, because the empty-list check is performed before the
duplicate-id check: no `VirusAlreadyCreated` is raised and the store is
returned unchanged. -/
theorem c10_create_empty_noop_present (s : Store) (i : Nat) (_hi : i ∈ s.ids) :
    create s i [] = (s, none) := by
  simp [create]

/-- Witness for C10 at a concrete input. -/
theorem c10_witness :
    0 ∈ (VirusGenealogy 0).ids ∧ create (VirusGenealogy 0) 0 [] = (VirusGenealogy 0, none) :=
  ⟨by decide, c10_create_empty_noop_present (VirusGenealogy 0) 0 (by decide)⟩

theorem insAlloc_perm (s : Store) (a : Nat) (l : List Nat) :
    List.Perm (insAlloc s a l) (a :: l) := by
  induction l with
  | nil => rfl
  | cons b l ih =>
    by_cases h : s.alloc a < s.alloc b ∨ (s.alloc a = s.alloc b ∧ a ≤ b)
    · simp [insAlloc, h]
    · simp only [insAlloc, if_neg h]
      exact (ih.cons b).trans (List.Perm.swap a b l)

theorem sortAlloc_perm (s : Store) (l : List Nat) : List.Perm (sortAlloc s l) l := by
  induction l with
  | nil => rfl
  | cons a l ih => exact (insAlloc_perm s a _).trans (ih.cons a)

theorem mem_ascList {F : Finset Nat} {x : Nat} : x ∈ ascList F ↔ x ∈ F := by
  constructor
  · intro h
    simpa using (List.mem_filter.mp h).2
  · intro h
    refine List.mem_filter.mpr ⟨List.mem_range.mpr ?_, by simpa⟩
    exact Nat.lt_succ_of_le (Finset.le_sup (f := id) h)

theorem nodup_ascList (F : Finset Nat) : (ascList F).Nodup :=
  List.Nodup.filter _ (List.nodup_range _)

theorem childList_nodup (s : Store) (p : Nat) : (childList s p).Nodup :=
  ((sortAlloc_perm s _).nodup_iff).mpr (nodup_ascList _)

theorem mem_childList {s : Store} {p x : Nat} :
    x ∈ childList s p ↔ x ∈ s.childrenOf p :=
  ((sortAlloc_perm s _).mem_iff).trans mem_ascList

/-- C2 (amended): for a present identifier, iterating from
`get_children_begin(id)` to `get_children_end(id)` yields the payload of
each child of `id` exactly once, in the internal order of the underlying
`std::set<smart_ptr>` (pointer order, modelled as allocation order) — not
necessarily in ascending order of identifiers. -/
theorem c2_children_iteration (s : Store) (i : Nat) (hi : i ∈ s.ids) :
    ∃ l, get_children s i = .ok l ∧ l.Nodup ∧
      ∀ c, c ∈ l ↔ c ∈ s.childrenOf i :=
  ⟨childList s i, by simp [get_children, hi], childList_nodup s i,
    fun _ => mem_childList⟩

/-- Witness for C2 at a concrete input. -/
theorem c2_witness :
    5 ∈ ((create ((create (VirusGenealogy 5) 3 [5]).1) 1 [5]).1).ids ∧
      ∃ l,
        get_children ((create ((create (VirusGenealogy 5) 3 [5]).1) 1 [5]).1) 5 =
          .ok l ∧ l.Nodup ∧
        ∀ c, c ∈ l ↔
          c ∈ ((create ((create (VirusGenealogy 5) 3 [5]).1) 1 [5]).1).childrenOf 5 :=
  ⟨by decide, c2_children_iteration _ 5 (by decide)⟩

/-- Effect of a successful run of the connect loop: every listed parent ends
up in the child parent set, membership of the child in a child set keeps
mirroring the parent set of the child, and the rest of the store is
untouched.  The mirror hypothesis holds in every store whose adjacency is
link-symmetric, and in particular when the child is brand new. -/
theorem connectLoop_ok (child : Nat) (l : List Nat) :
    ∀ (acc : List Nat) (u : Store),
      (∀ p ∈ l, p ∈ u.ids) →
      (∀ p ∈ u.ids, (child ∈ u.childrenOf p ↔ p ∈ u.parentsOf child)) →
      ∃ t, connectLoop child u l acc = (t, none) ∧
        t.ids = u.ids ∧ t.stem = u.stem ∧ t.alloc = u.alloc ∧
        t.nextAlloc = u.nextAlloc ∧
        t.parentsOf child = u.parentsOf child ∪ l.toFinset ∧
        (∀ x, x ≠ child → t.parentsOf x = u.parentsOf x) ∧
        (∀ p ∈ u.ids, (child ∈ t.childrenOf p ↔ p ∈ t.parentsOf child)) ∧
        (∀ p c, c ≠ child → (c ∈ t.childrenOf p ↔ c ∈ u.childrenOf p)) := by
  induction l with
  | nil =>
    intro acc u _ hJ
    exact ⟨u, rfl, rfl, rfl, rfl, rfl, by simp, fun x _ => rfl, hJ,
      fun p c _ => Iff.rfl⟩
  | cons p rest ih =>
    intro acc u hl hJ
    have hp : p ∈ u.ids := hl p (List.mem_cons_self p rest)
    by_cases hedge : child ∈ u.childrenOf p
    · have hpar : p ∈ u.parentsOf child := (hJ p hp).mp hedge
      obtain ⟨t, ht, h1, h2, h3, h4, h5, h6, h7, h8⟩ :=
        ih acc u (fun q hq => hl q (List.mem_cons_of_mem p hq)) hJ
      refine ⟨t, ?_, h1, h2, h3, h4, ?_, h6, h7, h8⟩
      · simpa [connectLoop, hp, hedge] using ht
      · rw [h5, List.toFinset_cons]
        ext x
        simp only [Finset.mem_union, Finset.mem_insert]
        constructor
        · rintro (h | h)
          · exact Or.inl h
          · exact Or.inr (Or.inr h)
        · rintro (h | rfl | h)
          · exact Or.inl h
          · exact Or.inl hpar
          · exact Or.inr h
    · set u2 : Store :=
        ⟨u.ids,
          Function.update u.parentsOf child (insert p (u.parentsOf child)),
          Function.update u.childrenOf p (insert child (u.childrenOf p)),
          u.stem, u.alloc, u.nextAlloc⟩ with hu2
      have hJ2 : ∀ q ∈ u2.ids,
          (child ∈ u2.childrenOf q ↔ q ∈ u2.parentsOf child) := by
        intro q hq
        by_cases hqp : q = p
        · subst hqp
          simp [hu2, Function.update_same]
        · simp only [hu2, Function.update_noteq hqp, Function.update_same]
          rw [Finset.mem_insert]
          constructor
          · intro h; exact Or.inr ((hJ q hq).mp h)
          · rintro (h | h)
            · exact absurd h hqp
            · exact (hJ q hq).mpr h
      obtain ⟨t, ht, h1, h2, h3, h4, h5, h6, h7, h8⟩ :=
        ih (p :: acc) u2 (fun q hq => hl q (List.mem_cons_of_mem p hq)) hJ2
      refine ⟨t, ?_, h1, h2, h3, h4, ?_, ?_, ?_, ?_⟩
      · simpa [connectLoop, hp, hedge, hu2] using ht
      · rw [h5]
        simp only [hu2, Function.update_same, List.toFinset_cons]
        rw [Finset.insert_union, Finset.union_insert]
      · intro x hx
        rw [h6 x hx]
        simp [hu2, Function.update_noteq hx]
      · intro q hq
        exact h7 q hq
      · intro q c hc
        rw [h8 q c hc]
        by_cases hqp : q = p
        · subst hqp
          simp [hu2, Function.update_same, Finset.mem_insert, hc]
        · simp [hu2, Function.update_noteq hqp]

/-- C5: `create(id, parents)` with a fresh id and a non-empty list of
present parents succeeds; afterwards `get_parents(id)` returns exactly the
listed identifiers, and `id` appears among the children of each listed
parent.  The closure hypothesis (children of present nodes are present) is
part of the representation invariant of a store. -/
theorem c5_create_links (s : Store) (i : Nat) (ps : List Nat)
    (hne : ps ≠ []) (hfresh : i ∉ s.ids) (hps : ∀ p ∈ ps, p ∈ s.ids)
    (hcc : ∀ p ∈ s.ids, s.childrenOf p ⊆ s.ids) :
    ∃ t, create s i ps = (t, none) ∧ get_parents t i = .ok ps.toFinset ∧
      ∀ p ∈ ps, i ∈ t.childrenOf p := by
  set s1 : Store :=
    ⟨insert i s.ids,
      Function.update s.parentsOf i ∅,
      Function.update s.childrenOf i ∅,
      s.stem,
      Function.update s.alloc i s.nextAlloc,
      s.nextAlloc + 1⟩ with hs1
  have hJ : ∀ p ∈ s1.ids, (i ∈ s1.childrenOf p ↔ p ∈ s1.parentsOf i) := by
    intro p hp
    simp only [hs1, Function.update_same, Finset.not_mem_empty, iff_false]
    by_cases hpi : p = i
    · subst hpi; simp [Function.update_same]
    · simp only [Function.update_noteq hpi]
      intro hmem
      rcases Finset.mem_insert.mp hp with h | h
      · exact hpi h
      · exact hfresh (hcc p h hmem)
  obtain ⟨t, ht, h1, h2, h3, h4, h5, h6, h7, h8⟩ :=
    connectLoop_ok i ps [] s1
      (fun p hp => by
        simp only [hs1, Finset.mem_insert]
        exact Or.inr (hps p hp))
      hJ
  have hcon : connect s1 i ps = (t, none) := by
    have : i ∈ s1.ids := by simp [hs1]
    simpa [connect, this] using ht
  refine ⟨t, ?_, ?_, ?_⟩
  · simp only [create, if_neg hne, if_neg hfresh]
    rw [← hs1, hcon]
  · have : i ∈ t.ids := by
      rw [h1]; simp [hs1]
    simp only [get_parents, if_pos this, h5, hs1, Function.update_same,
      Finset.empty_union]
  · intro p hp
    have hpid : p ∈ s1.ids := by
      simp only [hs1, Finset.mem_insert]
      exact Or.inr (hps p hp)
    refine (h7 p hpid).mpr ?_
    rw [h5]
    exact Finset.mem_union_right _ (List.mem_toFinset.mpr hp)

/-- Witness for C5 at a concrete input. -/
theorem c5_witness :
    let s := (create (VirusGenealogy 0) 1 [0]).1
    ([0, 1] ≠ ([] : List Nat)) ∧ 2 ∉ s.ids ∧ (∀ p ∈ [0, 1], p ∈ s.ids) ∧
      (∀ p ∈ s.ids, s.childrenOf p ⊆ s.ids) ∧
      ∃ t, create s 2 [0, 1] = (t, none) ∧
        get_parents t 2 = .ok ([0, 1].toFinset) ∧
        ∀ p ∈ [0, 1], 2 ∈ t.childrenOf p :=
  ⟨by decide, by decide, by decide, by decide,
    c5_create_links _ 2 [0, 1] (by decide) (by decide) (by decide) (by decide)⟩

/-- Characterization of a successful `create`: the fresh node carries
exactly the listed parents, appears in the child set of exactly the listed
parents, and the rest of the store is unchanged. -/
theorem create_ok (s : Store) (i : Nat) (ps : List Nat)
    (hne : ps ≠ []) (hfresh : i ∉ s.ids) (hps : ∀ p ∈ ps, p ∈ s.ids)
    (hcc : ∀ p ∈ s.ids, s.childrenOf p ⊆ s.ids) :
    ∃ t, create s i ps = (t, none) ∧
      t.ids = insert i s.ids ∧ t.stem = s.stem ∧
      t.parentsOf i = ps.toFinset ∧
      (∀ x, x ≠ i → t.parentsOf x = s.parentsOf x) ∧
      t.childrenOf i = ∅ ∧
      (∀ p ∈ s.ids, (i ∈ t.childrenOf p ↔ p ∈ ps.toFinset)) ∧
      (∀ p c, c ≠ i → (c ∈ t.childrenOf p ↔ c ∈ s.childrenOf p ∧ p ≠ i)) := by
  set s1 : Store :=
    ⟨insert i s.ids,
      Function.update s.parentsOf i ∅,
      Function.update s.childrenOf i ∅,
      s.stem,
      Function.update s.alloc i s.nextAlloc,
      s.nextAlloc + 1⟩ with hs1
  have hiI : i ∈ s1.ids := by simp [hs1]
  have hJ : ∀ p ∈ s1.ids, (i ∈ s1.childrenOf p ↔ p ∈ s1.parentsOf i) := by
    intro p hp
    simp only [hs1, Function.update_same, Finset.not_mem_empty, iff_false]
    by_cases hpi : p = i
    · subst hpi; simp [Function.update_same]
    · simp only [Function.update_noteq hpi]
      intro hmem
      rcases Finset.mem_insert.mp hp with h | h
      · exact hpi h
      · exact hfresh (hcc p h hmem)
  obtain ⟨t, ht, h1, h2, h3, h4, h5, h6, h7, h8⟩ :=
    connectLoop_ok i ps [] s1
      (fun p hp => by
        simp only [hs1, Finset.mem_insert]
        exact Or.inr (hps p hp))
      hJ
  have hips : i ∉ ps.toFinset := by
    intro h
    exact hfresh (hps i (List.mem_toFinset.mp h))
  have hpar : t.parentsOf i = ps.toFinset := by
    rw [h5]
    simp [hs1, Function.update_same]
  have hchi : t.childrenOf i = ∅ := by
    ext c
    simp only [Finset.not_mem_empty, iff_false]
    intro hc
    by_cases hci : c = i
    · rw [hci] at hc
      have hmem := (h7 i hiI).mp hc
      rw [hpar] at hmem
      exact hips hmem
    · have := (h8 i c hci).mp hc
      simp [hs1, Function.update_same] at this
  refine ⟨t, ?_, ?_, ?_, hpar, ?_, hchi, ?_, ?_⟩
  · simp only [create, if_neg hne, if_neg hfresh]
    rw [← hs1]
    have hcon : connect s1 i ps = (t, none) := by
      simpa [connect, hiI] using ht
    rw [hcon]
  · rw [h1]
  · rw [h2]
  · intro x hx
    rw [h6 x hx]
    simp [hs1, Function.update_noteq hx]
  · intro p hp
    have hp1 : p ∈ s1.ids := by
      simp only [hs1, Finset.mem_insert]
      exact Or.inr hp
    rw [h7 p hp1, hpar]
  · intro p c hc
    rw [h8 p c hc]
    by_cases hpi : p = i
    · subst hpi
      simp [hs1, Function.update_same]
    · simp [hs1, Function.update_noteq hpi, hpi]

theorem bfsRun_nil (s : Store) (V : Finset Nat) (c : Nat → Nat) (n : Nat) :
    bfsRun s n ⟨[], V, c⟩ = ⟨[], V, c⟩ := by
  cases n <;> rfl

/-- When the starting node has no children, the traversal of `remove`
visits exactly that node. -/
theorem removalSet_no_children {t : Store} {X : Nat} (h : childList t X = []) :
    removalSet t X = {X} := by
  unfold removalSet
  simp only [bfsRun, popNode, h, List.foldl_nil, bfsRun_nil]
  rfl

/-- C7: in a store satisfying the representation closure invariant (children
of present nodes are present), with A and B present and X absent,
`create(X, [A, B])` followed by `remove(X)` restores the store: the same
entities are present and every present entity keeps the parent set and the
child set it had before the create. -/
theorem c7_create_remove_roundtrip (s : Store) (A B X : Nat)
    (hA : A ∈ s.ids) (hB : B ∈ s.ids) (hX : X ∉ s.ids)
    (hstem : s.stem ∈ s.ids)
    (hcc : ∀ p ∈ s.ids, s.childrenOf p ⊆ s.ids) :
    ∃ t u, create s X [A, B] = (t, none) ∧ remove t X = (u, none) ∧
      StoreEquiv s u := by
  have hps : ∀ p ∈ [A, B], p ∈ s.ids := by
    intro p hp
    rcases List.mem_cons.mp hp with h | h
    · exact h ▸ hA
    · rcases List.mem_cons.mp h with h2 | h2
      · exact h2 ▸ hB
      · cases h2
  obtain ⟨t, hct, hids, hstem_t, hparX, hparO, hchX, hchMem, hchO⟩ :=
    create_ok s X [A, B] (by simp) hX hps hcc
  have hXstem : ¬(X = t.stem) := by
    rw [hstem_t]
    intro h
    exact hX (h ▸ hstem)
  have hXt : X ∈ t.ids := by
    rw [hids]
    exact Finset.mem_insert_self X _
  have hclX : childList t X = [] := by
    rw [List.eq_nil_iff_forall_not_mem]
    intro c hc
    rw [mem_childList, hchX] at hc
    exact absurd hc (Finset.not_mem_empty c)
  have hR : removalSet t X = {X} := removalSet_no_children hclX
  have hrem : remove t X =
      (⟨t.ids \ {X},
        fun x => if x ∈ ({X} : Finset Nat) then ∅
          else (t.parentsOf x).filter
            (fun c => ¬(c ∈ ({X} : Finset Nat) ∧ x ∈ t.childrenOf c)),
        fun x => if x ∈ ({X} : Finset Nat) then ∅
          else if x ∈ t.parentsOf X then (t.childrenOf x).erase X
          else t.childrenOf x,
        t.stem, t.alloc, t.nextAlloc⟩, none) := by
    simp only [remove, if_neg hXstem, if_pos hXt, hR]
  refine ⟨t, _, hct, hrem, hstem_t.symm, ?_, ?_⟩
  · rw [hids, Finset.sdiff_singleton_eq_erase, Finset.erase_insert hX]
  · intro x hx
    have hxX : x ≠ X := fun h => hX (h ▸ hx)
    have hxmem : x ∉ ({X} : Finset Nat) := by simp [hxX]
    constructor
    · simp only [if_neg hxmem]
      have hfil : (t.parentsOf x).filter
          (fun c => ¬(c ∈ ({X} : Finset Nat) ∧ x ∈ t.childrenOf c)) =
            t.parentsOf x := by
        apply Finset.filter_true_of_mem
        intro c _
        rintro ⟨hcX, hmem⟩
        rw [Finset.mem_singleton] at hcX
        rw [hcX, hchX] at hmem
        exact absurd hmem (Finset.not_mem_empty x)
      rw [hfil, hparO x hxX]
    · simp only [if_neg hxmem]
      by_cases hpx : x ∈ t.parentsOf X
      · rw [if_pos hpx]
        ext c
        rw [Finset.mem_erase]
        constructor
        · intro hc
          have hcX : c ≠ X := fun h => hX (h ▸ hcc x hx hc)
          exact ⟨hcX, (hchO x c hcX).mpr ⟨hc, hxX⟩⟩
        · rintro ⟨hcX, hc⟩
          exact ((hchO x c hcX).mp hc).1
      · rw [if_neg hpx]
        ext c
        by_cases hcX : c = X
        · constructor
          · intro h
            exact absurd (hcc x hx (hcX ▸ h)) (hcX ▸ hX)
          · intro h
            rw [hcX] at h
            have hmm := (hchMem x hx).mp h
            rw [← hparX] at hmm
            exact absurd hmm hpx
        · rw [hchO x c hcX]
          simp [hxX]

/-- Witness for C7 at a concrete input. -/
theorem c7_witness :
    let s := (create ((create (VirusGenealogy 0) 1 [0]).1) 2 [0]).1
    1 ∈ s.ids ∧ 2 ∈ s.ids ∧ 5 ∉ s.ids ∧ s.stem ∈ s.ids ∧
      (∀ p ∈ s.ids, s.childrenOf p ⊆ s.ids) ∧
      ∃ t u, create s 5 [1, 2] = (t, none) ∧ remove t 5 = (u, none) ∧
        StoreEquiv s u :=
  ⟨by decide, by decide, by decide, by decide, by decide,
    c7_create_remove_roundtrip _ 1 2 5 (by decide) (by decide) (by decide)
      (by decide) (by decide)⟩

/-- Stores reachable from a fresh `VirusGenealogy` by arbitrary sequences of
`create`, `connect` and `remove` calls (successful or failing), with the
single restriction that `connect` is never given the stem as its child
argument. -/
inductive ReachNS : Store → Prop
  | init (i : Nat) : ReachNS (VirusGenealogy i)
  | step_create {s : Store} (i : Nat) (ps : List Nat) :
      ReachNS s → ReachNS (create s i ps).1
  | step_connect {s : Store} (c : Nat) (ps : List Nat) :
      ReachNS s → c ≠ s.stem → ReachNS (connect s c ps).1
  | step_remove {s : Store} (i : Nat) :
      ReachNS s → ReachNS (remove s i).1

/-- The stem is present and is nobody's child. -/
def StemSafe (s : Store) : Prop :=
  s.stem ∈ s.ids ∧ ∀ p, s.stem ∉ s.childrenOf p

theorem rollback_frame (child : Nat) :
    ∀ (acc : List Nat) (u : Store),
      (rollback child u acc).ids = u.ids ∧
      (rollback child u acc).stem = u.stem ∧
      ∀ p x, x ∈ (rollback child u acc).childrenOf p → x ∈ u.childrenOf p := by
  intro acc
  induction acc with
  | nil => exact fun u => ⟨rfl, rfl, fun p x h => h⟩
  | cons a acc ih =>
    intro u
    obtain ⟨h1, h2, h3⟩ := ih
      ⟨u.ids, u.parentsOf,
        Function.update u.childrenOf a ((u.childrenOf a).erase child),
        u.stem, u.alloc, u.nextAlloc⟩
    refine ⟨h1, h2, fun p x h => ?_⟩
    have := h3 p x h
    by_cases hpa : p = a
    · subst hpa
      simp only [Function.update_same] at this
      exact Finset.mem_of_mem_erase this
    · simp only [Function.update_noteq hpa] at this
      exact this

theorem connectLoop_frame (child : Nat) :
    ∀ (l acc : List Nat) (u : Store),
      (connectLoop child u l acc).1.ids = u.ids ∧
      (connectLoop child u l acc).1.stem = u.stem ∧
      ∀ p x, x ∈ (connectLoop child u l acc).1.childrenOf p →
        x = child ∨ x ∈ u.childrenOf p := by
  intro l
  induction l with
  | nil => exact fun acc u => ⟨rfl, rfl, fun p x h => Or.inr h⟩
  | cons q rest ih =>
    intro acc u
    by_cases hq : q ∈ u.ids
    · by_cases hedge : child ∈ u.childrenOf q
      · obtain ⟨h1, h2, h3⟩ := ih acc u
        refine ⟨?_, ?_, ?_⟩ <;> simp only [connectLoop, if_pos hq, if_pos hedge]
        · exact h1
        · exact h2
        · exact h3
      · set u2 : Store :=
          ⟨u.ids,
            Function.update u.parentsOf child (insert q (u.parentsOf child)),
            Function.update u.childrenOf q (insert child (u.childrenOf q)),
            u.stem, u.alloc, u.nextAlloc⟩ with hu2
        obtain ⟨h1, h2, h3⟩ := ih (q :: acc) u2
        refine ⟨?_, ?_, ?_⟩ <;>
          simp only [connectLoop, if_pos hq, if_neg hedge, ← hu2]
        · exact h1
        · exact h2
        · intro p x h
          rcases h3 p x h with h | h
          · exact Or.inl h
          · by_cases hpq : p = q
            · subst hpq
              rw [hu2] at h
              simp only [Function.update_same] at h
              rcases Finset.mem_insert.mp h with h | h
              · exact Or.inl h
              · exact Or.inr h
            · rw [hu2] at h
              simp only [Function.update_noteq hpq] at h
              exact Or.inr h
    · obtain ⟨h1, h2, h3⟩ := rollback_frame child acc u
      refine ⟨?_, ?_, ?_⟩ <;> simp only [connectLoop, if_neg hq]
      · exact h1
      · exact h2
      · exact fun p x h => Or.inr (h3 p x h)

theorem connect_stemSafe {s : Store} {c : Nat} (ps : List Nat)
    (h : StemSafe s) (hc : c ≠ s.stem) : StemSafe (connect s c ps).1 := by
  by_cases hcs : c ∈ s.ids
  · obtain ⟨h1, h2, h3⟩ := connectLoop_frame c ps [] s
    simp only [connect, if_pos hcs]
    refine ⟨?_, ?_⟩
    · rw [h1, h2]; exact h.1
    · intro p hmem
      rw [h2] at hmem
      rcases h3 p s.stem hmem with heq | hmem2
      · exact hc heq.symm
      · exact h.2 p hmem2
  · simpa [connect, if_neg hcs] using h

theorem create_stemSafe {s : Store} (i : Nat) (ps : List Nat)
    (h : StemSafe s) : StemSafe (create s i ps).1 := by
  by_cases hne : ps = []
  · simpa [create, hne] using h
  · by_cases hi : i ∈ s.ids
    · simpa [create, hne, hi] using h
    · have hines : i ≠ s.stem := fun he => hi (he ▸ h.1)
      set s1 : Store :=
        ⟨insert i s.ids,
          Function.update s.parentsOf i ∅,
          Function.update s.childrenOf i ∅,
          s.stem,
          Function.update s.alloc i s.nextAlloc,
          s.nextAlloc + 1⟩ with hs1
      have hsafe1 : StemSafe s1 := by
        constructor
        · simp only [hs1, Finset.mem_insert]
          exact Or.inr h.1
        · intro p
          by_cases hpi : p = i
          · subst hpi
            simp [hs1, Function.update_same]
          · simp only [hs1, Function.update_noteq hpi]
            exact h.2 p
      have hstem1 : s1.stem = s.stem := rfl
      obtain ⟨h1, h2, h3⟩ := connectLoop_frame i ps [] s1
      have hcon : StemSafe (connectLoop i s1 ps []).1 := by
        refine ⟨?_, ?_⟩
        · rw [h1, h2]; exact hsafe1.1
        · intro p hmem
          rw [h2] at hmem
          rcases h3 p s1.stem hmem with heq | hmem2
          · exact hines (by rw [← heq, hstem1])
          · exact hsafe1.2 p hmem2
      have hi1 : i ∈ s1.ids := by simp [hs1]
      simp only [create, if_neg hne, if_neg hi, ← hs1, connect, if_pos hi1]
      rcases hres : connectLoop i s1 ps [] with ⟨t, e⟩
      rw [hres] at hcon h2
      cases e with
      | none => exact hcon
      | some err =>
        have h2t : t.stem = s1.stem := h2
        have hc1 : t.stem ∈ t.ids := hcon.1
        have hc2 : ∀ p, t.stem ∉ t.childrenOf p := hcon.2
        refine ⟨?_, ?_⟩
        · show t.stem ∈ t.ids.erase i
          refine Finset.mem_erase.mpr ⟨?_, hc1⟩
          rw [h2t, hstem1]
          exact hines.symm
        · intro p
          show t.stem ∉ t.childrenOf p
          exact hc2 p

theorem foldTouch_frame (s : Store) :
    ∀ (L : List Nat) (st : BfsSt),
      (L.foldl (touchChild s) st).visited = st.visited ∧
      ∀ x, x ∈ (L.foldl (touchChild s) st).queue → x ∈ st.queue ∨ x ∈ L := by
  intro L
  induction L with
  | nil => exact fun st => ⟨rfl, fun x h => Or.inl h⟩
  | cons c L ih =>
    intro st
    obtain ⟨h1, h2⟩ := ih (touchChild s st c)
    refine ⟨h1, fun x h => ?_⟩
    rcases h2 x h with h | h
    · simp only [touchChild] at h
      by_cases hc : st.cnt c + 1 = (s.parentsOf c).card
      · rw [if_pos hc] at h
        rcases List.mem_append.mp h with h | h
        · exact Or.inl h
        · simp only [List.mem_singleton] at h
          exact Or.inr (h ▸ List.mem_cons_self c L)
      · rw [if_neg hc] at h
        exact Or.inl h
    · exact Or.inr (List.mem_cons_of_mem c h)

theorem bfs_avoids (s : Store) (a : Nat) (h2 : ∀ p, a ∉ s.childrenOf p) :
    ∀ (n : Nat) (st : BfsSt), a ∉ st.queue → a ∉ st.visited →
      a ∉ (bfsRun s n st).visited := by
  intro n
  induction n with
  | zero => exact fun st _ hv => hv
  | succ n ih =>
    intro st hq hv
    rcases hqe : st.queue with _ | ⟨c, q⟩
    · simpa [bfsRun, hqe] using hv
    · have hca : c ≠ a := by
        intro h
        exact hq (hqe ▸ (h ▸ List.mem_cons_self c q))
      obtain ⟨h1, h3⟩ := foldTouch_frame s (childList s c) ⟨q, insert c st.visited, st.cnt⟩
      simp only [bfsRun, hqe]
      apply ih
      · intro hmem
        rcases h3 a hmem with h | h
        · exact hq (hqe ▸ List.mem_cons_of_mem c h)
        · exact h2 c (mem_childList.mp h)
      · rw [popNode, h1]
        simp only [Finset.mem_insert]
        rintro (h | h)
        · exact hca h.symm
        · exact hv h

theorem stem_not_in_removalSet {s : Store} {i : Nat}
    (h : StemSafe s) (hi : i ≠ s.stem) : s.stem ∉ removalSet s i := by
  apply bfs_avoids s s.stem h.2
  · simp [hi.symm]
  · exact Finset.not_mem_empty _

theorem remove_stemSafe {s : Store} (i : Nat) (h : StemSafe s) :
    StemSafe (remove s i).1 := by
  by_cases h1 : i = s.stem
  · simpa [remove, h1] using h
  · by_cases h2 : i ∈ s.ids
    · have hnr := stem_not_in_removalSet h h1
      refine ⟨?_, ?_⟩ <;> simp only [remove, if_neg h1, if_pos h2]
      · exact Finset.mem_sdiff.mpr ⟨h.1, hnr⟩
      · intro p
        by_cases hp : p ∈ removalSet s i
        · simp [hp]
        · simp only [if_neg hp]
          by_cases hpp : p ∈ s.parentsOf i
          · simp only [if_pos hpp]
            intro hmem
            exact h.2 p (Finset.mem_of_mem_erase hmem)
          · simp only [if_neg hpp]
            exact h.2 p
    · simpa [remove, h1, h2] using h

theorem reachNS_stemSafe {s : Store} (h : ReachNS s) : StemSafe s := by
  induction h with
  | init i => exact ⟨by simp [VirusGenealogy], fun p => Finset.not_mem_empty _⟩
  | step_create i ps _ ih => exact create_stemSafe i ps ih
  | step_connect c ps _ hc ih => exact connect_stemSafe ps ih hc
  | step_remove i _ ih => exact remove_stemSafe i ih

/-- C4 (amended): for every store, `remove(get_stem_id())` fails with
`TriedToRemoveStemVirus` — the check happens before any traversal and the
store is returned unchanged.  And `exists(get_stem_id())` is true in every
store reachable by a sequence of operations in which `connect` is never
given the stem as its child argument; the counterexample shows that after
a successful `connect` with the stem as child, a later `remove` can erase
the stem, making `exists(get_stem_id())` false. -/
theorem c4_stem_safety (s : Store) :
    remove s (get_stem_id s) = (s, some .triedToRemoveStem) ∧
      (ReachNS s → existsVirus s (get_stem_id s) = true) := by
  constructor
  · simp [remove, get_stem_id]
  · intro h
    simp [existsVirus, get_stem_id, (reachNS_stemSafe h).1]

/-- Witness for C4 at a concrete input. -/
theorem c4_witness :
    remove (VirusGenealogy 0) (get_stem_id (VirusGenealogy 0)) =
        (VirusGenealogy 0, some .triedToRemoveStem) ∧
      existsVirus (VirusGenealogy 0) (get_stem_id (VirusGenealogy 0)) = true :=
  ⟨(c4_stem_safety (VirusGenealogy 0)).1,
    (c4_stem_safety (VirusGenealogy 0)).2 (ReachNS.init 0)⟩

/-- Full characterization of one traversal iteration over the child list of
a popped node: the visited set is untouched, every listed counter is bumped
once, and exactly the children whose counter reaches the size of their
parent set are appended to the queue, in list order. -/
theorem foldTouch_spec (s : Store) :
    ∀ (L : List Nat) (st : BfsSt), L.Nodup →
      (L.foldl (touchChild s) st).visited = st.visited ∧
      (∀ x, (L.foldl (touchChild s) st).cnt x =
        if x ∈ L then st.cnt x + 1 else st.cnt x) ∧
      (L.foldl (touchChild s) st).queue =
        st.queue ++ L.filter (fun x => st.cnt x + 1 = (s.parentsOf x).card) := by
  intro L
  induction L with
  | nil =>
    intro st _
    refine ⟨rfl, fun x => by simp, by simp⟩
  | cons c L ih =>
    intro st hnd
    have hcL : c ∉ L := (List.nodup_cons.mp hnd).1
    have hndL : L.Nodup := (List.nodup_cons.mp hnd).2
    obtain ⟨h1, h2, h3⟩ := ih (touchChild s st c) hndL
    simp only [List.foldl_cons]
    refine ⟨h1, ?_, ?_⟩
    · intro x
      rw [h2 x]
      by_cases hxc : x = c
      · subst hxc
        rw [if_neg hcL, if_pos (List.mem_cons_self x L)]
        simp [touchChild, Function.update_same]
      · have hsame : (touchChild s st c).cnt x = st.cnt x := by
          simp [touchChild, Function.update_noteq hxc]
        rw [hsame]
        by_cases hxL : x ∈ L
        · rw [if_pos hxL, if_pos (List.mem_cons_of_mem c hxL)]
        · rw [if_neg hxL, if_neg (by simp [List.mem_cons, hxc, hxL])]
    · rw [h3]
      have hq : (touchChild s st c).queue =
          st.queue ++ (if st.cnt c + 1 = (s.parentsOf c).card then [c] else []) := by
        simp only [touchChild]
        by_cases hcond : st.cnt c + 1 = (s.parentsOf c).card
        · rw [if_pos hcond, if_pos hcond]
        · rw [if_neg hcond, if_neg hcond, List.append_nil]
      have hfil : L.filter
            (fun x => (touchChild s st c).cnt x + 1 = (s.parentsOf x).card) =
          L.filter (fun x => st.cnt x + 1 = (s.parentsOf x).card) := by
        apply List.filter_congr
        intro x hx
        have hxc : x ≠ c := fun h => hcL (h ▸ hx)
        simp [touchChild, Function.update_noteq hxc]
      rw [hfil, hq, List.append_assoc]
      congr 1
      by_cases hcond : st.cnt c + 1 = (s.parentsOf c).card
      · rw [if_pos hcond, List.filter_cons, if_pos (by simpa using hcond)]
        rfl
      · rw [if_neg hcond, List.filter_cons, if_neg (by simpa using hcond),
          List.nil_append]

theorem filter_mem_insert {P V : Finset Nat} {a : Nat} (ha : a ∉ V) :
    ((P.filter (fun c => c ∈ insert a V)).card =
      (P.filter (fun c => c ∈ V)).card + if a ∈ P then 1 else 0) := by
  by_cases h : a ∈ P
  · rw [if_pos h]
    have : P.filter (fun c => c ∈ insert a V) =
        insert a (P.filter (fun c => c ∈ V)) := by
      ext c
      simp only [Finset.mem_filter, Finset.mem_insert]
      constructor
      · rintro ⟨hc, hins | hins⟩
        · exact Or.inl hins
        · exact Or.inr ⟨hc, hins⟩
      · rintro (rfl | ⟨hc, hv⟩)
        · exact ⟨h, Or.inl rfl⟩
        · exact ⟨hc, Or.inr hv⟩
    rw [this, Finset.card_insert_of_not_mem (fun hmem => ha (Finset.mem_filter.mp hmem).2)]
  · rw [if_neg h, Nat.add_zero]
    congr 1
    ext c
    simp only [Finset.mem_filter, Finset.mem_insert]
    constructor
    · rintro ⟨hc, rfl | hv⟩
      · exact absurd hc h
      · exact ⟨hc, hv⟩
    · rintro ⟨hc, hv⟩
      exact ⟨hc, Or.inr hv⟩

/-- The representation invariant of a store, maintained by every successful
operation along connect-restricted sequences: the stem is present,
parentless and nobody's child; adjacency is closed over present nodes and
symmetric in both directions; every present non-stem node has at least one
parent. -/
structure Wf (s : Store) : Prop where
  stem_mem : s.stem ∈ s.ids
  stem_nopar : s.parentsOf s.stem = ∅
  stem_noch : ∀ p, s.stem ∉ s.childrenOf p
  cc : ∀ p ∈ s.ids, s.childrenOf p ⊆ s.ids
  pc : ∀ x ∈ s.ids, s.parentsOf x ⊆ s.ids
  sym1 : ∀ p ∈ s.ids, ∀ x, x ∈ s.childrenOf p → p ∈ s.parentsOf x
  sym2 : ∀ x ∈ s.ids, ∀ p, p ∈ s.parentsOf x → x ∈ s.childrenOf p
  par_ne : ∀ x ∈ s.ids, x ≠ s.stem → s.parentsOf x ≠ ∅

/-- A ranking certificate of acyclicity of the child relation over present
nodes. -/
def AcyclicRank (s : Store) : Prop :=
  ∃ rk : Nat → Nat, ∀ p ∈ s.ids, ∀ x ∈ s.childrenOf p, rk p < rk x

/-- Loop invariant of the traversal of `remove(r)` on a well-formed acyclic
store. -/
structure BfsInv (s : Store) (r : Nat) (rk : Nat → Nat) (st : BfsSt) : Prop where
  subq : ∀ x ∈ st.queue, x ∈ s.ids
  subv : ∀ x ∈ st.visited, x ∈ s.ids
  nod : st.queue.Nodup
  dis : ∀ x ∈ st.queue, x ∉ st.visited
  cnt_eq : ∀ x ∈ s.ids,
    st.cnt x = ((s.parentsOf x).filter (fun c => c ∈ st.visited)).card
  hitq : ∀ x ∈ s.ids, s.parentsOf x ≠ ∅ → s.parentsOf x ⊆ st.visited →
    x ∈ st.queue ∨ x ∈ st.visited
  par_sub : ∀ x, (x ∈ st.queue ∨ x ∈ st.visited) → x ≠ r →
    s.parentsOf x ⊆ st.visited
  rk_lb : ∀ x, (x ∈ st.queue ∨ x ∈ st.visited) → rk r ≤ rk x
  mem_r : r ∈ st.queue ∨ r ∈ st.visited

/-- Fuel bound of the traversal: queue length plus the number of present
nodes whose counter has not yet reached the size of their parent set. -/
def bfsMeasure (s : Store) (st : BfsSt) : Nat :=
  st.queue.length +
    (s.ids.filter (fun x => st.cnt x < (s.parentsOf x).card)).card

/-- One iteration of the traversal preserves the loop invariant and strictly
decreases the fuel bound. -/
theorem bfs_step_inv {s : Store} {r : Nat} {rk : Nat → Nat}
    (hW : Wf s)
    (hrk : ∀ p ∈ s.ids, ∀ x ∈ s.childrenOf p, rk p < rk x)
    {cur : Nat} {q : List Nat} {V : Finset Nat} {cnt : Nat → Nat}
    (hinv : BfsInv s r rk ⟨cur :: q, V, cnt⟩) :
    BfsInv s r rk (popNode s cur ⟨q, V, cnt⟩) ∧
      bfsMeasure s (popNode s cur ⟨q, V, cnt⟩) + 1 ≤
        bfsMeasure s ⟨cur :: q, V, cnt⟩ := by
  have hcur_ids : cur ∈ s.ids := hinv.subq cur (List.mem_cons_self cur q)
  have hcur_nv : cur ∉ V := hinv.dis cur (List.mem_cons_self cur q)
  have hndq : q.Nodup := (List.nodup_cons.mp hinv.nod).2
  have hcur_nq : cur ∉ q := (List.nodup_cons.mp hinv.nod).1
  obtain ⟨hfv, hfc, hfq⟩ :=
    foldTouch_spec s (childList s cur) ⟨q, insert cur V, cnt⟩
      (childList_nodup s cur)
  simp only [] at hfv hfc hfq
  have hpop : popNode s cur ⟨q, V, cnt⟩ =
      (childList s cur).foldl (touchChild s) ⟨q, insert cur V, cnt⟩ := rfl
  have hparent : ∀ x ∈ s.ids,
      (cur ∈ s.parentsOf x ↔ x ∈ childList s cur) := by
    intro x hx
    rw [mem_childList]
    exact ⟨fun h => hW.sym2 x hx cur h, fun h => hW.sym1 cur hcur_ids x h⟩
  have hpush_mem : ∀ x,
      x ∈ (childList s cur).filter
          (fun y => cnt y + 1 = (s.parentsOf y).card) ↔
        (x ∈ childList s cur ∧ cnt x + 1 = (s.parentsOf x).card) := by
    intro x
    simp [List.mem_filter]
  have hpush_ids : ∀ x ∈ (childList s cur).filter
      (fun y => cnt y + 1 = (s.parentsOf y).card), x ∈ s.ids := by
    intro x hx
    exact hW.cc cur hcur_ids (mem_childList.mp ((hpush_mem x).mp hx).1)
  have hpush_ne_cur : ∀ x ∈ (childList s cur).filter
      (fun y => cnt y + 1 = (s.parentsOf y).card), x ≠ cur := by
    intro x hx he
    have hch := mem_childList.mp ((hpush_mem x).mp hx).1
    have := hrk cur hcur_ids x hch
    rw [he] at this
    exact Nat.lt_irrefl _ this
  have hpush_ne_r : ∀ x ∈ (childList s cur).filter
      (fun y => cnt y + 1 = (s.parentsOf y).card), x ≠ r := by
    intro x hx he
    have hch := mem_childList.mp ((hpush_mem x).mp hx).1
    have h1 := hrk cur hcur_ids x hch
    have h2 := hinv.rk_lb cur (Or.inl (List.mem_cons_self cur q))
    rw [he] at h1
    exact Nat.lt_irrefl _ (Nat.lt_of_le_of_lt h2 h1)
  have hpush_not_hit : ∀ x ∈ (childList s cur).filter
      (fun y => cnt y + 1 = (s.parentsOf y).card), ¬ s.parentsOf x ⊆ V := by
    intro x hx hsub
    obtain ⟨hxL, hcond⟩ := (hpush_mem x).mp hx
    have hxids := hW.cc cur hcur_ids (mem_childList.mp hxL)
    have hfull : (s.parentsOf x).filter (fun c => c ∈ V) = s.parentsOf x :=
      Finset.filter_true_of_mem (fun c hc => hsub hc)
    have hceq : cnt x = ((s.parentsOf x).filter (fun c => c ∈ V)).card :=
      hinv.cnt_eq x hxids
    rw [hfull] at hceq
    omega
  have hpush_nq : ∀ x ∈ (childList s cur).filter
      (fun y => cnt y + 1 = (s.parentsOf y).card), x ∉ q := by
    intro x hx hq
    exact hpush_not_hit x hx
      (hinv.par_sub x (Or.inl (List.mem_cons_of_mem cur hq)) (hpush_ne_r x hx))
  have hpush_nv : ∀ x ∈ (childList s cur).filter
      (fun y => cnt y + 1 = (s.parentsOf y).card), x ∉ V := by
    intro x hx hv
    exact hpush_not_hit x hx
      (hinv.par_sub x (Or.inr hv) (hpush_ne_r x hx))
  constructor
  · refine ⟨?_, ?_, ?_, ?_, ?_, ?_, ?_, ?_, ?_⟩ <;> rw [hpop]
    · intro x hx
      rw [hfq] at hx
      rcases List.mem_append.mp hx with h | h
      · exact hinv.subq x (List.mem_cons_of_mem cur h)
      · exact hpush_ids x h
    · intro x hx
      rw [hfv] at hx
      rcases Finset.mem_insert.mp hx with h | h
      · exact h ▸ hcur_ids
      · exact hinv.subv x h
    · rw [hfq]
      refine List.Nodup.append hndq (List.Nodup.filter _ (childList_nodup s cur)) ?_
      intro a ha hb
      exact hpush_nq a hb ha
    · intro x hx
      rw [hfq] at hx
      rw [hfv]
      rcases List.mem_append.mp hx with h | h
      · intro hmem
        rcases Finset.mem_insert.mp hmem with he | he
        · exact hcur_nq (he ▸ h)
        · exact hinv.dis x (List.mem_cons_of_mem cur h) he
      · intro hmem
        rcases Finset.mem_insert.mp hmem with he | he
        · exact hpush_ne_cur x h he
        · exact hpush_nv x h he
    · intro x hx
      rw [hfc x, hfv]
      rw [filter_mem_insert hcur_nv, ← hinv.cnt_eq x hx]
      by_cases hxL : x ∈ childList s cur
      · rw [if_pos hxL, if_pos ((hparent x hx).mpr hxL)]
      · rw [if_neg hxL, if_neg (fun h => hxL ((hparent x hx).mp h)), Nat.add_zero]
    · intro x hx hne hsub
      rw [hfv] at hsub
      rw [hfq, hfv]
      by_cases hcp : cur ∈ s.parentsOf x
      · have hxL := (hparent x hx).mp hcp
        have hsubV : (s.parentsOf x).filter (fun c => c ∈ V) =
            (s.parentsOf x).erase cur := by
          ext c
          simp only [Finset.mem_filter, Finset.mem_erase]
          constructor
          · rintro ⟨hc, hv⟩
            exact ⟨fun he => hcur_nv (he ▸ hv), hc⟩
          · rintro ⟨hne2, hc⟩
            rcases Finset.mem_insert.mp (hsub hc) with he | he
            · exact absurd he hne2
            · exact ⟨hc, he⟩
        have hcond : cnt x + 1 = (s.parentsOf x).card := by
          have hceq : cnt x = ((s.parentsOf x).filter (fun c => c ∈ V)).card :=
            hinv.cnt_eq x hx
          rw [hceq, hsubV, Finset.card_erase_of_mem hcp]
          exact Nat.sub_add_cancel (Finset.card_pos.mpr ⟨cur, hcp⟩)
        refine Or.inl (List.mem_append_right _ ?_)
        exact (hpush_mem x).mpr ⟨hxL, hcond⟩
      · have hsubV : s.parentsOf x ⊆ V := by
          intro c hc
          rcases Finset.mem_insert.mp (hsub hc) with he | he
          · exact absurd (he ▸ hc) hcp
          · exact he
        rcases hinv.hitq x hx hne hsubV with h | h
        · rcases List.mem_cons.mp h with he | he
          · exact Or.inr (Finset.mem_insert.mpr (Or.inl he))
          · exact Or.inl (List.mem_append_left _ he)
        · exact Or.inr (Finset.mem_insert_of_mem h)
    · intro x hx hne
      rw [hfv]
      rw [hfq, hfv] at hx
      have htail : s.parentsOf x ⊆ V → s.parentsOf x ⊆ insert cur V :=
        fun h => h.trans (Finset.subset_insert cur V)
      rcases hx with hx | hx
      · rcases List.mem_append.mp hx with h | h
        · exact htail (hinv.par_sub x (Or.inl (List.mem_cons_of_mem cur h)) hne)
        · obtain ⟨hxL, hcond⟩ := (hpush_mem x).mp h
          have hxids := hpush_ids x h
          have hcp : cur ∈ s.parentsOf x := (hparent x hxids).mpr hxL
          have hcard :
              ((s.parentsOf x).filter (fun c => c ∈ insert cur V)).card =
                (s.parentsOf x).card := by
            rw [filter_mem_insert hcur_nv, if_pos hcp, ← hinv.cnt_eq x hxids,
              hcond]
          have heq : (s.parentsOf x).filter (fun c => c ∈ insert cur V) =
              s.parentsOf x :=
            Finset.eq_of_subset_of_card_le (Finset.filter_subset _ _)
              (le_of_eq hcard.symm)
          intro c hc
          have : c ∈ (s.parentsOf x).filter (fun d => d ∈ insert cur V) :=
            heq.symm ▸ hc
          exact (Finset.mem_filter.mp this).2
      · rcases Finset.mem_insert.mp hx with he | he
        · exact htail
            (hinv.par_sub x (Or.inl (he ▸ List.mem_cons_self cur q)) hne)
        · exact htail (hinv.par_sub x (Or.inr he) hne)
    · intro x hx
      rw [hfq] at hx
      rw [hfv] at hx
      rcases hx with hx | hx
      · rcases List.mem_append.mp hx with h | h
        · exact hinv.rk_lb x (Or.inl (List.mem_cons_of_mem cur h))
        · have hch := mem_childList.mp ((hpush_mem x).mp h).1
          have h1 := hrk cur hcur_ids x hch
          have h2 := hinv.rk_lb cur (Or.inl (List.mem_cons_self cur q))
          exact Nat.le_of_lt (Nat.lt_of_le_of_lt h2 h1)
      · rcases Finset.mem_insert.mp hx with he | he
        · exact he ▸ hinv.rk_lb cur (Or.inl (List.mem_cons_self cur q))
        · exact hinv.rk_lb x (Or.inr he)
    · rw [hfq, hfv]
      rcases hinv.mem_r with h | h
      · rcases List.mem_cons.mp h with he | he
        · exact Or.inr (Finset.mem_insert.mpr (Or.inl he))
        · exact Or.inl (List.mem_append_left _ he)
      · exact Or.inr (Finset.mem_insert_of_mem h)
  · rw [hpop]
    unfold bfsMeasure
    rw [hfq]
    rw [List.length_append]
    have hlen : ((childList s cur).filter
        (fun y => cnt y + 1 = (s.parentsOf y).card)).toFinset.card =
          ((childList s cur).filter
            (fun y => cnt y + 1 = (s.parentsOf y).card)).length :=
      List.toFinset_card_of_nodup (List.Nodup.filter _ (childList_nodup s cur))
    set pF := ((childList s cur).filter
      (fun y => cnt y + 1 = (s.parentsOf y).card)).toFinset with hpF
    set NH := s.ids.filter (fun x => cnt x < (s.parentsOf x).card) with hNH
    set NH2 := s.ids.filter
      (fun x => ((childList s cur).foldl (touchChild s)
        ⟨q, insert cur V, cnt⟩).cnt x < (s.parentsOf x).card) with hNH2
    have hsub1 : pF ⊆ NH := by
      intro x hx
      rw [hpF, List.mem_toFinset] at hx
      rw [hNH, Finset.mem_filter]
      obtain ⟨hxL, hcond⟩ := (hpush_mem x).mp hx
      exact ⟨hpush_ids x hx, by omega⟩
    have hsub2 : NH2 ⊆ NH \ pF := by
      intro x hx
      rw [hNH2, Finset.mem_filter] at hx
      obtain ⟨hxids, hlt⟩ := hx
      rw [hfc x] at hlt
      rw [Finset.mem_sdiff, hNH, Finset.mem_filter, hpF, List.mem_toFinset]
      by_cases hxL : x ∈ childList s cur
      · rw [if_pos hxL] at hlt
        refine ⟨⟨hxids, by omega⟩, ?_⟩
        intro hmem
        have hcond := ((hpush_mem x).mp hmem).2
        omega
      · rw [if_neg hxL] at hlt
        refine ⟨⟨hxids, hlt⟩, ?_⟩
        intro hmem
        exact hxL ((hpush_mem x).mp hmem).1
    have hcards := Finset.card_sdiff_add_card_eq_card hsub1
    have h1 : NH2.card ≤ (NH \ pF).card := Finset.card_le_card hsub2
    have h2 : (NH \ pF).card + pF.card = NH.card := hcards
    simp only [List.length_cons]
    omega

/-- Running the traversal with enough fuel empties the queue and preserves
the loop invariant. -/
theorem bfsRun_inv {s : Store} {r : Nat} {rk : Nat → Nat}
    (hW : Wf s) (hrk : ∀ p ∈ s.ids, ∀ x ∈ s.childrenOf p, rk p < rk x) :
    ∀ (n : Nat) (st : BfsSt), BfsInv s r rk st → bfsMeasure s st ≤ n →
      (bfsRun s n st).queue = [] ∧ BfsInv s r rk (bfsRun s n st) := by
  intro n
  induction n with
  | zero =>
    intro st hinv hm
    obtain ⟨Q, V, CN⟩ := st
    have hlen : Q.length = 0 := by
      unfold bfsMeasure at hm
      simp only [] at hm
      omega
    have hq : Q = [] := List.length_eq_zero.mp hlen
    subst hq
    exact ⟨rfl, hinv⟩
  | succ n ih =>
    intro st hinv hm
    obtain ⟨Q, V, CN⟩ := st
    rcases Q with _ | ⟨c, q⟩
    · exact ⟨by rw [bfsRun_nil], by rw [bfsRun_nil]; exact hinv⟩
    · obtain ⟨hinv2, hdec⟩ := bfs_step_inv hW hrk hinv
      have hm2 : bfsMeasure s (popNode s c ⟨q, V, CN⟩) ≤ n := by
        have hm1 : bfsMeasure s ⟨c :: q, V, CN⟩ ≤ n + 1 := hm
        omega
      have hres := ih (popNode s c ⟨q, V, CN⟩) hinv2 hm2
      have hrun : bfsRun s (n + 1) ⟨c :: q, V, CN⟩ =
          bfsRun s n (popNode s c ⟨q, V, CN⟩) := rfl
      rw [hrun]
      exact hres

/-- The facts about `fully_remove` needed to preserve well-formedness: the
start node is in it, it stays inside the id set and avoids the stem, every
member other than the start node has all its parents in it, and every
present node outside it keeps at least one parent outside it. -/
theorem removalSet_spec {s : Store} {r : Nat} (hW : Wf s)
    (hac : AcyclicRank s) (hr : r ∈ s.ids) (hrs : r ≠ s.stem) :
    r ∈ removalSet s r ∧ removalSet s r ⊆ s.ids ∧
      s.stem ∉ removalSet s r ∧
      (∀ x ∈ removalSet s r, x ≠ r → s.parentsOf x ⊆ removalSet s r) ∧
      (∀ x ∈ s.ids, x ∉ removalSet s r → s.parentsOf x ≠ ∅ →
        ¬ s.parentsOf x ⊆ removalSet s r) := by
  obtain ⟨rk, hrk⟩ := hac
  have hinv0 : BfsInv s r rk ⟨[r], ∅, fun _ => 0⟩ := by
    refine ⟨?_, ?_, ?_, ?_, ?_, ?_, ?_, ?_, ?_⟩
    · intro x hx
      rw [List.mem_singleton] at hx
      exact hx ▸ hr
    · intro x hx
      exact absurd hx (Finset.not_mem_empty x)
    · simp
    · intro x _
      exact Finset.not_mem_empty x
    · intro x _
      simp
    · intro x _ hne hsub
      exact absurd (Finset.subset_empty.mp hsub) hne
    · intro x hx hne
      rcases hx with hx | hx
      · rw [List.mem_singleton] at hx
        exact absurd hx hne
      · exact absurd hx (Finset.not_mem_empty x)
    · intro x hx
      rcases hx with hx | hx
      · rw [List.mem_singleton] at hx
        exact hx ▸ Nat.le_refl _
      · exact absurd hx (Finset.not_mem_empty x)
    · exact Or.inl (List.mem_singleton.mpr rfl)
  have hm0 : bfsMeasure s ⟨[r], ∅, fun _ => 0⟩ ≤ s.ids.card + 1 := by
    unfold bfsMeasure
    simp only [List.length_singleton]
    have := Finset.card_filter_le s.ids
      (fun x => (0 : Nat) < (s.parentsOf x).card)
    omega
  obtain ⟨hqnil, hfin⟩ :=
    bfsRun_inv hW hrk (s.ids.card + 1) ⟨[r], ∅, fun _ => 0⟩ hinv0 hm0
  have hvis : removalSet s r =
      (bfsRun s (s.ids.card + 1) ⟨[r], ∅, fun _ => 0⟩).visited := rfl
  refine ⟨?_, ?_, ?_, ?_, ?_⟩
  · rcases hfin.mem_r with h | h
    · rw [hqnil] at h
      exact absurd h (List.not_mem_nil r)
    · rw [hvis]
      exact h
  · intro x hx
    exact hfin.subv x (hvis ▸ hx)
  · have hss : StemSafe s := ⟨hW.stem_mem, hW.stem_noch⟩
    exact stem_not_in_removalSet hss hrs
  · intro x hx hne
    have := hfin.par_sub x (Or.inr (hvis ▸ hx)) hne
    rw [← hvis] at this
    exact this
  · intro x hx hnR hne hsub
    rcases hfin.hitq x hx hne (hvis ▸ hsub) with h | h
    · rw [hqnil] at h
      exact absurd h (List.not_mem_nil x)
    · exact hnR (hvis ▸ h)

/-- A successful `remove` preserves well-formedness and acyclicity. -/
theorem remove_wf {s t : Store} {i : Nat} (h : remove s i = (t, none))
    (hW : Wf s) (hac : AcyclicRank s) : Wf t ∧ AcyclicRank t := by
  by_cases h1 : i = s.stem
  · exfalso
    rw [remove, if_pos h1] at h
    exact Option.noConfusion (congrArg Prod.snd h)
  · by_cases h2 : i ∈ s.ids
    · have hspec := removalSet_spec hW hac h2 h1
      obtain ⟨hGr, hGsub, hGstem, hG3, hG4⟩ := hspec
      rw [remove, if_neg h1, if_pos h2] at h
      have ht := (Prod.ext_iff.mp h).1
      simp only [] at ht
      subst ht
      set R := removalSet s i with hR
      have hpar' : ∀ x ∈ s.ids, x ∉ R →
          (s.parentsOf x).filter
              (fun c => ¬(c ∈ R ∧ x ∈ s.childrenOf c)) =
            s.parentsOf x \ R := by
        intro x hx _
        ext c
        simp only [Finset.mem_filter, Finset.mem_sdiff]
        constructor
        · rintro ⟨hc, hcond⟩
          refine ⟨hc, fun hcR => hcond ⟨hcR, hW.sym2 x hx c hc⟩⟩
        · rintro ⟨hc, hcR⟩
          exact ⟨hc, fun hcond => hcR hcond.1⟩
      have hch_sub : ∀ x, x ∉ R →
          (if x ∈ s.parentsOf i then (s.childrenOf x).erase i
            else s.childrenOf x) ⊆ s.childrenOf x := by
        intro x _
        by_cases hp : x ∈ s.parentsOf i
        · rw [if_pos hp]
          exact Finset.erase_subset i _
        · rw [if_neg hp]
      have hchR : ∀ x ∈ s.ids, x ∉ R → ∀ c ∈ R,
          c ∉ (if x ∈ s.parentsOf i then (s.childrenOf x).erase i
            else s.childrenOf x) := by
        intro x hx hxR c hcR hmem
        by_cases hci : c = i
        · subst hci
          by_cases hp : x ∈ s.parentsOf c
          · rw [if_pos hp] at hmem
            exact (Finset.mem_erase.mp hmem).1 rfl
          · rw [if_neg hp] at hmem
            exact hp (hW.sym1 x hx c hmem)
        · have hmem2 : c ∈ s.childrenOf x := hch_sub x hxR hmem
          have hxpc : x ∈ s.parentsOf c := hW.sym1 x hx c hmem2
          exact hxR (hG3 c hcR hci hxpc)
      constructor
      · refine ⟨?_, ?_, ?_, ?_, ?_, ?_, ?_, ?_⟩
        · exact Finset.mem_sdiff.mpr ⟨hW.stem_mem, hGstem⟩
        · show (if s.stem ∈ R then (∅ : Finset Nat)
            else (s.parentsOf s.stem).filter
              (fun c => ¬(c ∈ R ∧ s.stem ∈ s.childrenOf c))) = ∅
          rw [if_neg hGstem, hpar' s.stem hW.stem_mem hGstem, hW.stem_nopar,
            Finset.empty_sdiff]
        · intro p
          show s.stem ∉ (if p ∈ R then (∅ : Finset Nat)
            else if p ∈ s.parentsOf i then (s.childrenOf p).erase i
            else s.childrenOf p)
          by_cases hpR : p ∈ R
          · rw [if_pos hpR]
            exact Finset.not_mem_empty _
          · rw [if_neg hpR]
            intro hmem
            exact hW.stem_noch p (hch_sub p hpR hmem)
        · intro p hp c hc
          rw [Finset.mem_sdiff] at hp
          obtain ⟨hpids, hpR⟩ := hp
          simp only [if_neg hpR] at hc
          have hcch : c ∈ s.childrenOf p := hch_sub p hpR hc
          refine Finset.mem_sdiff.mpr ⟨hW.cc p hpids hcch, ?_⟩
          intro hcR
          exact hchR p hpids hpR c hcR hc
        · intro x hx c hc
          rw [Finset.mem_sdiff] at hx
          obtain ⟨hxids, hxR⟩ := hx
          simp only [if_neg hxR, hpar' x hxids hxR] at hc
          rw [Finset.mem_sdiff] at hc
          exact Finset.mem_sdiff.mpr ⟨hW.pc x hxids hc.1, hc.2⟩
        · intro p hp x hx
          rw [Finset.mem_sdiff] at hp
          obtain ⟨hpids, hpR⟩ := hp
          simp only [if_neg hpR] at hx
          have hxch : x ∈ s.childrenOf p := hch_sub p hpR hx
          have hxR : x ∉ R := fun hxR => hchR p hpids hpR x hxR hx
          have hxids : x ∈ s.ids := hW.cc p hpids hxch
          simp only [if_neg hxR, hpar' x hxids hxR]
          exact Finset.mem_sdiff.mpr ⟨hW.sym1 p hpids x hxch, hpR⟩
        · intro x hx q hq
          rw [Finset.mem_sdiff] at hx
          obtain ⟨hxids, hxR⟩ := hx
          simp only [if_neg hxR, hpar' x hxids hxR] at hq
          rw [Finset.mem_sdiff] at hq
          obtain ⟨hqpar, hqR⟩ := hq
          have hxch : x ∈ s.childrenOf q := hW.sym2 x hxids q hqpar
          simp only [if_neg hqR]
          by_cases hqi : q ∈ s.parentsOf i
          · rw [if_pos hqi]
            refine Finset.mem_erase.mpr ⟨?_, hxch⟩
            intro he
            exact hxR (he ▸ hGr)
          · rw [if_neg hqi]
            exact hxch
        · intro x hx hne
          rw [Finset.mem_sdiff] at hx
          obtain ⟨hxids, hxR⟩ := hx
          simp only [if_neg hxR, hpar' x hxids hxR]
          intro hempty
          have hsub : s.parentsOf x ⊆ R := by
            intro c hc
            by_contra hcR
            have : c ∈ s.parentsOf x \ R := Finset.mem_sdiff.mpr ⟨hc, hcR⟩
            rw [hempty] at this
            exact Finset.not_mem_empty c this
          exact hG4 x hxids hxR (hW.par_ne x hxids hne) hsub
      · obtain ⟨rk, hrk⟩ := hac
        refine ⟨rk, ?_⟩
        intro p hp x hx
        rw [Finset.mem_sdiff] at hp
        obtain ⟨hpids, hpR⟩ := hp
        simp only [if_neg hpR] at hx
        exact hrk p hpids x (hch_sub p hpR hx)
    · exfalso
      rw [remove, if_neg h1, if_neg h2] at h
      exact Option.noConfusion (congrArg Prod.snd h)


/-- A successful run of the connect loop requires every listed parent to be
present (in the store the loop runs on). -/
theorem connectLoop_ok_mem {child : Nat} :
    ∀ (l acc : List Nat) (u t : Store),
      connectLoop child u l acc = (t, none) → ∀ p ∈ l, p ∈ u.ids := by
  intro l
  induction l with
  | nil =>
    intro acc u t _ p hp
    exact absurd hp (List.not_mem_nil p)
  | cons q rest ih =>
    intro acc u t hrun p hp
    by_cases hq : q ∈ u.ids
    · rcases List.mem_cons.mp hp with he | he
      · exact he ▸ hq
      · by_cases hedge : child ∈ u.childrenOf q
        · simp only [connectLoop, if_pos hq, if_pos hedge] at hrun
          exact ih acc u t hrun p he
        · simp only [connectLoop, if_pos hq, if_neg hedge] at hrun
          exact ih (q :: acc) _ t hrun p he
    · simp only [connectLoop, if_neg hq] at hrun
      exact Option.noConfusion (congrArg Prod.snd hrun)

/-- A successful `connect` whose child is not the stem preserves
well-formedness. -/
theorem connect_wf {s t : Store} {c : Nat} {ps : List Nat}
    (h : connect s c ps = (t, none)) (hW : Wf s) (hc : c ≠ s.stem) : Wf t := by
  by_cases hcs : c ∈ s.ids
  · rw [connect, if_pos hcs] at h
    have hl : ∀ p ∈ ps, p ∈ s.ids := connectLoop_ok_mem ps [] s t h
    have hJ : ∀ p ∈ s.ids, (c ∈ s.childrenOf p ↔ p ∈ s.parentsOf c) :=
      fun p hp => ⟨fun hm => hW.sym1 p hp c hm, fun hm => hW.sym2 c hcs p hm⟩
    obtain ⟨t2, ht2, h1, h2, h3, h4, h5, h6, h7, h8⟩ :=
      connectLoop_ok c ps [] s hl hJ
    rw [ht2] at h
    have htt : t2 = t := (Prod.ext_iff.mp h).1
    subst htt
    refine ⟨?_, ?_, ?_, ?_, ?_, ?_, ?_, ?_⟩
    · rw [h1, h2]
      exact hW.stem_mem
    · rw [h2, h6 s.stem (Ne.symm hc)]
      exact hW.stem_nopar
    · intro p
      rw [h2]
      intro hmem
      exact hW.stem_noch p ((h8 p s.stem (Ne.symm hc)).mp hmem)
    · intro p hp x hx
      rw [h1] at hp ⊢
      by_cases hxc : x = c
      · exact hxc ▸ hcs
      · exact hW.cc p hp ((h8 p x hxc).mp hx)
    · intro x hx q hq
      rw [h1] at hx ⊢
      by_cases hxc : x = c
      · subst hxc
        rw [h5] at hq
        rcases Finset.mem_union.mp hq with hm | hm
        · exact hW.pc x hx hm
        · exact hl q (List.mem_toFinset.mp hm)
      · rw [h6 x hxc] at hq
        exact hW.pc x hx hq
    · intro p hp x hx
      rw [h1] at hp
      by_cases hxc : x = c
      · subst hxc
        exact (h7 p hp).mp hx
      · rw [h6 x hxc]
        exact hW.sym1 p hp x ((h8 p x hxc).mp hx)
    · intro x hx q hq
      rw [h1] at hx
      by_cases hxc : x = c
      · subst hxc
        rw [h5] at hq
        rcases Finset.mem_union.mp hq with hm | hm
        · refine (h7 q (hW.pc x hx hm)).mpr ?_
          rw [h5]
          exact Finset.mem_union_left _ hm
        · refine (h7 q (hl q (List.mem_toFinset.mp hm))).mpr ?_
          rw [h5]
          exact Finset.mem_union_right _ hm
      · rw [h6 x hxc] at hq
        refine (h8 q x hxc).mpr ?_
        exact hW.sym2 x hx q hq
    · intro x hx hne
      rw [h1] at hx
      rw [h2] at hne
      by_cases hxc : x = c
      · subst hxc
        rw [h5]
        intro hemp
        rw [Finset.union_eq_empty] at hemp
        exact hW.par_ne x hx hne hemp.1
      · rw [h6 x hxc]
        exact hW.par_ne x hx hne
  · exfalso
    rw [connect, if_neg hcs] at h
    exact Option.noConfusion (congrArg Prod.snd h)

/-- A successful `create` preserves well-formedness. -/
theorem create_wf {s t : Store} {i : Nat} {ps : List Nat}
    (h : create s i ps = (t, none)) (hW : Wf s) : Wf t := by
  by_cases hne : ps = []
  · rw [create, if_pos hne] at h
    have htt : s = t := (Prod.ext_iff.mp h).1
    exact htt ▸ hW
  · by_cases hi : i ∈ s.ids
    · exfalso
      rw [create, if_neg hne, if_pos hi] at h
      exact Option.noConfusion (congrArg Prod.snd h)
    · set s1 : Store :=
        ⟨insert i s.ids,
          Function.update s.parentsOf i ∅,
          Function.update s.childrenOf i ∅,
          s.stem,
          Function.update s.alloc i s.nextAlloc,
          s.nextAlloc + 1⟩ with hs1
      have his : i ≠ s.stem := fun he => hi (he ▸ hW.stem_mem)
      have hi1 : i ∈ s1.ids := by simp [hs1]
      rw [create, if_neg hne, if_neg hi, ← hs1] at h
      simp only [connect, if_pos hi1] at h
      rcases hcl : connectLoop i s1 ps [] with ⟨t2, e2⟩
      rw [hcl] at h
      cases e2 with
      | some e3 => exact absurd (congrArg Prod.snd h) (by simp)
      | none =>
        have htt : t2 = t := (Prod.ext_iff.mp h).1
        subst htt
        have hl1 : ∀ p ∈ ps, p ∈ s1.ids := connectLoop_ok_mem ps [] s1 t2 hcl
        have hJ : ∀ p ∈ s1.ids,
            (i ∈ s1.childrenOf p ↔ p ∈ s1.parentsOf i) := by
          intro p hp
          simp only [hs1, Function.update_same, Finset.not_mem_empty, iff_false]
          by_cases hpi : p = i
          · subst hpi
            simp [Function.update_same]
          · simp only [Function.update_noteq hpi]
            intro hmem
            rcases Finset.mem_insert.mp hp with hh | hh
            · exact hpi hh
            · exact hi (hW.cc p hh hmem)
        obtain ⟨t3, ht3, h1, h2, h3, h4, h5, h6, h7, h8⟩ :=
          connectLoop_ok i ps [] s1 hl1 hJ
        rw [hcl] at ht3
        have htt3 : t3 = t2 := ((Prod.ext_iff.mp ht3).1).symm
        subst htt3
        have hids : t3.ids = insert i s.ids := h1
        have hstem : t3.stem = s.stem := h2
        have hparI : t3.parentsOf i = ps.toFinset := by
          rw [h5]
          simp [hs1, Function.update_same]
        have hparO : ∀ x, x ≠ i → t3.parentsOf x = s.parentsOf x := by
          intro x hx
          rw [h6 x hx]
          simp [hs1, Function.update_noteq hx]
        have hch1 : ∀ p c, c ≠ i → c ∈ t3.childrenOf p →
            (c ∈ s.childrenOf p ∧ p ≠ i) := by
          intro p c hc hmem
          have := (h8 p c hc).mp hmem
          by_cases hpi : p = i
          · exfalso
            subst hpi
            simp [hs1, Function.update_same] at this
          · rw [hs1] at this
            simp only [Function.update_noteq hpi] at this
            exact ⟨this, hpi⟩
        have hch2 : ∀ p c, c ≠ i → p ≠ i → c ∈ s.childrenOf p →
            c ∈ t3.childrenOf p := by
          intro p c hc hp hmem
          refine (h8 p c hc).mpr ?_
          rw [hs1]
          simp only [Function.update_noteq hp]
          exact hmem
        refine ⟨?_, ?_, ?_, ?_, ?_, ?_, ?_, ?_⟩
        · rw [hids, hstem]
          exact Finset.mem_insert_of_mem hW.stem_mem
        · rw [hstem, hparO s.stem (Ne.symm his)]
          exact hW.stem_nopar
        · intro p
          rw [hstem]
          intro hmem
          exact hW.stem_noch p (hch1 p s.stem (Ne.symm his) hmem).1
        · intro p hp c hc
          rw [hids]
          by_cases hci : c = i
          · exact hci ▸ Finset.mem_insert_self i s.ids
          · obtain ⟨hcs, hpi⟩ := hch1 p c hci hc
            rw [hids] at hp
            rcases Finset.mem_insert.mp hp with hh | hh
            · exact absurd hh hpi
            · exact Finset.mem_insert_of_mem (hW.cc p hh hcs)
        · intro x hx q hq
          rw [hids] at hx ⊢
          by_cases hxi : x = i
          · subst hxi
            rw [hparI] at hq
            have := hl1 q (List.mem_toFinset.mp hq)
            rw [hs1] at this
            exact this
          · rw [hparO x hxi] at hq
            rcases Finset.mem_insert.mp hx with hh | hh
            · exact absurd hh hxi
            · exact Finset.mem_insert_of_mem (hW.pc x hh hq)
        · intro p hp x hx
          by_cases hxi : x = i
          · subst hxi
            rw [hids] at hp
            refine (h7 p ?_).mp hx
            rw [hs1]
            exact hp
          · obtain ⟨hxs, hpi⟩ := hch1 p x hxi hx
            rw [hids] at hp
            rcases Finset.mem_insert.mp hp with hh | hh
            · exact absurd hh hpi
            · rw [hparO x hxi]
              exact hW.sym1 p hh x hxs
        · intro x hx q hq
          rw [hids] at hx
          by_cases hxi : x = i
          · subst hxi
            rw [hparI] at hq
            refine (h7 q ?_).mpr ?_
            · exact hl1 q (List.mem_toFinset.mp hq)
            · rw [hparI]
              exact hq
          · rw [hparO x hxi] at hq
            rcases Finset.mem_insert.mp hx with hh | hh
            · exact absurd hh hxi
            · have hqs : q ∈ s.ids := hW.pc x hh hq
              have hqi : q ≠ i := fun he => hi (he ▸ hqs)
              exact hch2 q x hxi hqi (hW.sym2 x hh q hq)
        · intro x hx hxs
          rw [hids] at hx
          rw [hstem] at hxs
          by_cases hxi : x = i
          · subst hxi
            rw [hparI]
            intro hemp
            exact hne ((List.toFinset_eq_empty_iff _).mp hemp)
          · rw [hparO x hxi]
            rcases Finset.mem_insert.mp hx with hh | hh
            · exact absurd hh hxi
            · exact hW.par_ne x hh hxs

theorem wf_init (i : Nat) : Wf (VirusGenealogy i) := by
  refine ⟨?_, rfl, ?_, ?_, ?_, ?_, ?_, ?_⟩
  · simp [VirusGenealogy]
  · intro p
    exact Finset.not_mem_empty _
  · intro p _
    exact Finset.empty_subset _
  · intro x _
    exact Finset.empty_subset _
  · intro p _ x hx
    exact absurd hx (Finset.not_mem_empty x)
  · intro x _ p hp
    exact absurd hp (Finset.not_mem_empty p)
  · intro x hx hne
    exfalso
    rw [VirusGenealogy] at hx
    simp only [Finset.mem_singleton] at hx
    exact hne hx

/-- Stores reachable from a fresh `VirusGenealogy` by sequences of
successful operations in which `connect` is never given the stem as its
child argument and no `connect` or `create` call introduces a directed
cycle (cycle-creating calls lead the later `remove` traversal into
re-enqueuing its start node, which in the C++ makes `viruses.erase` run
twice on one iterator — undefined behaviour outside this model). -/
inductive SafeReach : Store → Prop
  | init (i : Nat) : SafeReach (VirusGenealogy i)
  | step_create {s t : Store} (i : Nat) (ps : List Nat) :
      SafeReach s → create s i ps = (t, none) → AcyclicRank t → SafeReach t
  | step_connect {s t : Store} (c : Nat) (ps : List Nat) :
      SafeReach s → c ≠ s.stem → connect s c ps = (t, none) →
      AcyclicRank t → SafeReach t
  | step_remove {s t : Store} (i : Nat) :
      SafeReach s → remove s i = (t, none) → SafeReach t

theorem safeReach_wf {s : Store} (h : SafeReach s) : Wf s ∧ AcyclicRank s := by
  induction h with
  | init i =>
    refine ⟨wf_init i, fun _ => 0, ?_⟩
    intro p _ x hx
    exact absurd hx (Finset.not_mem_empty x)
  | step_create i ps hsr heq hac ih => exact ⟨create_wf heq ih.1, hac⟩
  | step_connect c ps hsr hc heq hac ih => exact ⟨connect_wf heq ih.1 hc, hac⟩
  | step_remove i hsr heq ih => exact remove_wf heq ih.1 ih.2

/-- C3 (amended): along every sequence of successful operations in which
`connect` is never given the stem as its child argument and no call
introduces a directed cycle, exactly one present entity — the stem — has an
empty parent set, and no such operation ever gives the stem a parent.  The
counterexample shows the restriction on `connect` is necessary: the code
happily executes `connect(stem_id, p)`, after which no entity is
parentless. -/
theorem c3_unique_parentless (s : Store) (h : SafeReach s) :
    s.ids.filter (fun x => s.parentsOf x = ∅) = {s.stem} := by
  obtain ⟨hW, -⟩ := safeReach_wf h
  ext x
  simp only [Finset.mem_filter, Finset.mem_singleton]
  constructor
  · rintro ⟨hx, hpar⟩
    by_contra hne
    exact hW.par_ne x hx hne hpar
  · rintro rfl
    exact ⟨hW.stem_mem, hW.stem_nopar⟩

/-- Witness for C3 at a concrete input: the store obtained by construct(0)
followed by a successful create(1, [0]). -/
theorem c3_witness :
    ((create (VirusGenealogy 0) 1 [0]).1).ids.filter
        (fun x => ((create (VirusGenealogy 0) 1 [0]).1).parentsOf x = ∅) =
      {((create (VirusGenealogy 0) 1 [0]).1).stem} :=
  c3_unique_parentless _
    (SafeReach.step_create 1 [0] (SafeReach.init 0)
      (Prod.ext_iff.mpr ⟨rfl, by decide⟩)
      ⟨id, by decide⟩)
